import Mathlib

/-!
Shallow embedding of the `w2_matrix` raster-graphics engine
(`src/graphics/matrix.rs`, `src/graphics.rs`).

Rust `f64` values are modelled as rationals (`ℚ`); all arithmetic in the
claims under study is exact.  Fallible code (Rust `assert!` panics, slice
index panics) is modelled with `Option` / `Except`: `none` / `.error`
marks the panic.
-/

namespace W2

/-- Row-major rectangular matrix (`struct Matrix` in `matrix.rs`):
`rows`, `cols : usize`, `data : Vec<f64>`. -/
structure Matrix where
  rows : ℕ
  cols : ℕ
  data : List ℚ
  deriving DecidableEq, Repr

namespace Matrix

/-- `Matrix::index`: row-major index `row * self.cols + col`. -/
def index (m : Matrix) (row col : ℕ) : ℕ :=
  row * m.cols + col

/-- `Matrix::new`: asserts `rows * cols == data.len()` (panic ↦ `none`). -/
def new (rows cols : ℕ) (data : List ℚ) : Option Matrix :=
  if rows * cols = data.length then some ⟨rows, cols, data⟩ else none

/-- `Matrix::get`.  The Rust body is
`if row > self.rows || col > self.cols { None } else { Some(self.data[self.index(row, col)]) }`.
The unchecked slice index can panic: the outer `Option` layer is the
panic (`none` = index-out-of-bounds panic), the inner layer is the Rust
`Option` return value. -/
def get (m : Matrix) (row col : ℕ) : Option (Option ℚ) :=
  if row > m.rows ∨ col > m.cols then
    some none
  else
    match m.data.get? (m.index row col) with
    | some v => some (some v)
    | none => none

/-- `Matrix::set`: asserts `row < self.rows && col < self.cols`, then
writes `data[index] = value`.  `none` models the assertion panic. -/
def set (m : Matrix) (row col : ℕ) (v : ℚ) : Option Matrix :=
  if row < m.rows ∧ col < m.cols then
    some { m with data := m.data.set (m.index row col) v }
  else
    none

/-- `Matrix::append_row`: asserts `self.cols == row.len()`, then
`self.data.append(row)` (which moves the elements out, leaving the
caller's vector empty) and `self.rows += 1`.  Returns the new matrix
together with the caller's vector as left after the call. -/
def append_row (m : Matrix) (row : List ℚ) : Option (Matrix × List ℚ) :=
  if m.cols = row.length then
    some ({ m with data := m.data ++ row, rows := m.rows + 1 }, [])
  else
    none

/-- `Matrix::append_edge`: asserts `self.cols == edge.len() + 1`, then
pushes `1.0` onto the caller's vector and appends it (moving all its
elements out).  Returns the new matrix and the caller's vector. -/
def append_edge (m : Matrix) (edge : List ℚ) : Option (Matrix × List ℚ) :=
  if m.cols = edge.length + 1 then
    some ({ m with data := m.data ++ (edge ++ [1]), rows := m.rows + 1 }, [])
  else
    none

/-- `Matrix::row_iter`: the slice `data[r*cols .. r*cols + cols]`. -/
def row_iter (m : Matrix) (r : ℕ) : List ℚ :=
  (m.data.drop (r * m.cols)).take m.cols

/-- Every `step`-th element of a list starting from the head
(Rust `Iterator::step_by`; step 0 panics in Rust and is modelled as
the empty list, unreached by the code under study). -/
def everyNth : List ℚ → ℕ → List ℚ
  | _, 0 => []
  | [], _ + 1 => []
  | x :: xs, s + 1 => x :: everyNth (xs.drop s) (s + 1)
termination_by l _ => l.length
decreasing_by
  simp only [List.length_drop, List.length_cons]
  omega

/-- `Matrix::col_iter`: `data.iter().skip(c).step_by(cols)`. -/
def col_iter (m : Matrix) (c : ℕ) : List ℚ :=
  everyNth (m.data.drop c) m.cols

/-- Rust `slice::chunks` (size-0 chunks panic in Rust; modelled as `[]`,
unreached by the code under study). -/
def chunks : List ℚ → ℕ → List (List ℚ)
  | _, 0 => []
  | [], _ + 1 => []
  | x :: xs, s + 1 => ((x :: xs).take (s + 1)) :: chunks ((x :: xs).drop (s + 1)) (s + 1)
termination_by l _ => l.length
decreasing_by
  simp only [List.length_drop, List.length_cons]
  omega

/-- `Matrix::iter_by_row`: `data.chunks(cols)`. -/
def iter_by_row (m : Matrix) : List (List ℚ) :=
  chunks m.data m.cols

/-- `Matrix::index_to_rc`: `(i / cols, i % cols)`. -/
def index_to_rc (i cols : ℕ) : ℕ × ℕ :=
  (i / cols, i % cols)

/-- `Matrix::mul`: asserts `self.cols == other.rows` (panic ↦ `none`);
builds `fdata` of length `frows * fcols`, each cell a left fold over the
zipped row of `self` and column of `other`, accumulator seeded at `0.0`. -/
def mul (a b : Matrix) : Option Matrix :=
  if a.cols = b.rows then
    let frows := a.rows
    let fcols := b.cols
    let fdata := (List.range (frows * fcols)).map (fun i =>
      let rc := index_to_rc i fcols
      ((a.row_iter rc.1).zip (b.col_iter rc.2)).foldl
        (fun sum p => sum + p.1 * p.2) 0)
    some ⟨frows, fcols, fdata⟩
  else
    none

/-- `Matrix::mul_mut_b`: `*b = a.mul(b)` — replaces `b` with the product. -/
def mul_mut_b (a b : Matrix) : Option Matrix :=
  a.mul b

/-- `Matrix::to_ident`: for each `(i, d)` in `data.iter_mut().enumerate()`,
set `d` to `1.0` when `index_to_rc(i, cols)` has equal components, else
`0.0`.  `rows` and `cols` are untouched. -/
def to_ident (m : Matrix) : Matrix :=
  { m with
    data := m.data.enum.map (fun p =>
      if (index_to_rc p.1 m.cols).1 = (index_to_rc p.1 m.cols).2 then 1 else 0) }

end Matrix

/-- `struct RGB`: three `u16` channels, declared in the order
red, blue, green. -/
structure RGB where
  red : ℕ
  blue : ℕ
  green : ℕ
  deriving DecidableEq, Repr

/-- `struct PPMImg`: a pixel surface with a dense row-major buffer. -/
structure PPMImg where
  height : ℕ
  width : ℕ
  depth : ℕ
  x_wrap : Bool
  y_wrap : Bool
  fg_color : RGB
  bg_color : RGB
  data : List RGB
  deriving DecidableEq, Repr

namespace PPMImg

/-- `PPMImg::new height width depth`: black background, foreground with
all channels at `depth`, wraparound off, buffer of `width * height`
background pixels. -/
def new (height width depth : ℕ) : PPMImg :=
  let bg_color : RGB := ⟨0, 0, 0⟩
  { height := height
    width := width
    depth := depth
    x_wrap := false
    y_wrap := false
    fg_color := ⟨depth, depth, depth⟩
    bg_color := bg_color
    data := List.replicate (width * height) bg_color }

/-- `PPMImg::index`: `y * width + x` (buffer position of a pixel). -/
def index (img : PPMImg) (x y : ℕ) : ℕ :=
  y * img.width + x

/-- `PPMImg::plot`.  Rust `%` on `i32` is truncated remainder, modelled
by `Int.tmod`; the negative branch adds the extent back when the
remainder is nonzero.  Out-of-range coordinates on a non-wrapping axis
make the call a no-op. -/
def plot (img : PPMImg) (x y : ℤ) : PPMImg :=
  let width : ℤ := img.width
  let height : ℤ := img.height
  if (!img.x_wrap ∧ (x < 0 ∨ x ≥ width)) ∨ (!img.y_wrap ∧ (y < 0 ∨ y ≥ height)) then
    img
  else
    let x' : ℤ :=
      if x ≥ width then Int.tmod x width
      else if x < 0 then
        let r := Int.tmod x width
        if r ≠ 0 then r + width else r
      else x
    let y' : ℤ :=
      if y ≥ height then Int.tmod y height
      else if y < 0 then
        let r := Int.tmod y height
        if r ≠ 0 then r + height else r
      else y
    { img with data := img.data.set (img.index x'.toNat y'.toNat) img.fg_color }

/-- `PPMImg::clear`: overwrite every pixel with the background color. -/
def clear (img : PPMImg) : PPMImg :=
  { img with data := img.data.map (fun _ => img.bg_color) }

end PPMImg

/-- `f64::round`: round half away from zero. -/
def roundAway (q : ℚ) : ℤ :=
  if 0 ≤ q then ⌊q + 1/2⌋ else -⌊(1/2) - q⌋

/-- Rust `lo..=hi` as a list of integers (empty when `hi < lo`). -/
def rangeIncl (lo hi : ℤ) : List ℤ :=
  (List.range (hi + 1 - lo).toNat).map (fun i : ℕ => lo + (i : ℤ))

/-- The octant-1/8 loop of `draw_line`: for each of `n` successive x
values plot `(x, y)`; if `d > 0` then `y += y_inc; d += 2*ndx`; always
`d += 2*dy`.  Returns the plotted coordinates in order. -/
def oct18 : ℕ → ℤ → ℤ → ℤ → ℤ → ℤ → ℤ → List (ℤ × ℤ)
  | 0, _, _, _, _, _, _ => []
  | n + 1, x, y, d, y_inc, dy, ndx =>
    (x, y) ::
      (if d > 0 then oct18 n (x + 1) (y + y_inc) (d + 2 * ndx + 2 * dy) y_inc dy ndx
       else oct18 n (x + 1) y (d + 2 * dy) y_inc dy ndx)

/-- The octant-2/7 loop of `draw_line`: for each of `n` successive y
values plot `(x, y)`; if `d > 0` then `x += x_inc; d -= 2*dy`; always
`d -= 2*ndx`. -/
def oct27 : ℕ → ℤ → ℤ → ℤ → ℤ → ℤ → ℤ → List (ℤ × ℤ)
  | 0, _, _, _, _, _, _ => []
  | n + 1, x, y, d, x_inc, dy, ndx =>
    (x, y) ::
      (if d > 0 then oct27 n (x + x_inc) (y + 1) (d - 2 * dy - 2 * ndx) x_inc dy ndx
       else oct27 n x (y + 1) (d - 2 * ndx) x_inc dy ndx)

/-- The pixel sequence produced by `PPMImg::draw_line` after the
endpoints have been rounded to integers (everything following the
`let (x0, y0, x1, y1) = (x0.round() as i32, …)` line of the source). -/
def drawLinePixelsInt (x0 y0 x1 y1 : ℤ) : List (ℤ × ℤ) :=
  let dy := y1 - y0
  let ndx := -(x1 - x0)
  if ndx = 0 then
    -- vertical line
    let p := if y0 < y1 then (y0, y1) else (y1, y0)
    (rangeIncl p.1 p.2).map (fun y => (x0, y))
  else if dy = 0 then
    -- horizontal line
    (rangeIncl x0 x1).map (fun x => (x, y0))
  else if (y1 - y0).natAbs < (x1 - x0).natAbs then
    -- octant 1 and 8
    let d := 2 * dy + ndx
    let p := if dy > 0 then ((1 : ℤ), dy) else (-1, -dy)
    oct18 (x1 + 1 - x0).toNat x0 y0 d p.1 p.2 ndx
  else
    -- octant 2 and 7
    let d := 2 * (-ndx) - dy
    let q := if dy > 0 then ((1 : ℤ), x0, y0, y1, dy) else (-1, x0 - ndx, y1, y0, -dy)
    oct27 (q.2.2.2.1 + 1 - q.2.2.1).toNat q.2.1 q.2.2.1 d q.1 q.2.2.2.2 ndx

/-- The pixel sequence of `PPMImg::draw_line` from the raw `f64`
endpoints: swap the endpoints when `x0 > x1` (the swap inlined into the
two branches), round each coordinate, then run the integer algorithm. -/
def drawLinePixels (x0 y0 x1 y1 : ℚ) : List (ℤ × ℤ) :=
  if x0 > x1 then
    drawLinePixelsInt (roundAway x1) (roundAway y1) (roundAway x0) (roundAway y0)
  else
    drawLinePixelsInt (roundAway x0) (roundAway y0) (roundAway x1) (roundAway y1)

/-- `PPMImg::draw_line`: plot each pixel of the rasterized segment in
order onto the surface. -/
def PPMImg.draw_line (img : PPMImg) (x0 y0 x1 y1 : ℚ) : PPMImg :=
  (drawLinePixels x0 y0 x1 y1).foldl (fun im p => im.plot p.1 p.2) img

/-- Big-endian bytes of a `u16` (`u16::to_be_bytes`). -/
def u16be (v : ℕ) : List ℕ :=
  [v / 256 % 256, v % 256]

/-- Value of a big-endian two-byte sequence. -/
def u16beVal : List ℕ → ℕ
  | [a, b] => 256 * a + b
  | _ => 0

/-- The pixel bytes `PPMImg::write_binary` emits after the two header
lines.  `depth < 256`: per pixel `green as u8` twice then `blue as u8`
(`as u8` truncates mod 256).  Otherwise: per pixel the big-endian byte
pairs of red, green, blue. -/
def writeBinaryBody (img : PPMImg) : List ℕ :=
  if img.depth < 256 then
    img.data.foldl (fun acc t => acc ++ [t.green % 256, t.green % 256, t.blue % 256]) []
  else
    img.data.foldl (fun acc t => acc ++ u16be t.red ++ u16be t.green ++ u16be t.blue) []

/-- The two panics reachable from `PPMImg::render_edge_matrix`:
a slice index out of bounds (`point[0]` / `point[1]` / `point[2]` on a
short row), or the explicit
`panic!("Number of edges must be a multiple of 2")`. -/
inductive RenderErr where
  | indexOutOfBounds
  | oddRows
  deriving DecidableEq, Repr

/-- The loop of `render_edge_matrix` over the row chunks: take two
chunks at a time, read entries 0, 1, 2 of each, and record the segment
`(x0, y0, x1, y1)` handed to `draw_line`. -/
def renderEdgeLoop : List (List ℚ) → Except RenderErr (List (ℚ × ℚ × ℚ × ℚ))
  | [] => .ok []
  | p0 :: rest =>
    match p0.get? 0, p0.get? 1, p0.get? 2 with
    | some x0, some y0, some _ =>
      match rest with
      | [] => .error .oddRows
      | p1 :: rest' =>
        match p1.get? 0, p1.get? 1, p1.get? 2 with
        | some x1, some y1, some _ =>
          (renderEdgeLoop rest').map (fun ls => (x0, y0, x1, y1) :: ls)
        | _, _, _ => .error .indexOutOfBounds
    | _, _, _ => .error .indexOutOfBounds

/-- `PPMImg::render_edge_matrix`: walk `m.iter_by_row()` pairwise and
collect the segments drawn (a panic is an `.error`). -/
def renderEdgeMatrix (m : Matrix) : Except RenderErr (List (ℚ × ℚ × ℚ × ℚ)) :=
  renderEdgeLoop m.iter_by_row

/-- The shape invariant of `Matrix`: the buffer length equals
`rows * cols`. -/
def Matrix.invariant (m : Matrix) : Prop :=
  m.data.length = m.rows * m.cols

end W2

open W2

/-- C1: The claim says `get(row, col)` returns no value whenever
`row ≥ rows` or `col ≥ cols` and never raises a hard failure.  The code
checks `row > rows || col > cols` (strict) and then indexes the buffer
unchecked, so exact-boundary calls diverge from the claim: on a 1×1
matrix, `get(1, 0)` hits an out-of-bounds slice index (a panic, modelled
as the outer `none`), and on a 2×2 matrix `get(0, 2)` silently returns
the stored element of the next row.  The in-range call `get(0, 0)`
behaves normally. -/
theorem matrix_get_boundary_behavior :
    Matrix.get ⟨1, 1, [5]⟩ 1 0 = none ∧
    Matrix.get ⟨2, 2, [1, 2, 3, 4]⟩ 0 2 = some (some 3) ∧
    Matrix.get ⟨1, 1, [5]⟩ 0 0 = some (some 5) := by
  decide

/-- C2: `mul` succeeds exactly when `a.cols = b.rows`; the result has
shape `a.rows × b.cols`, and cell `(r, c)` is the left fold, seeded at
`0`, summing the products of the zipped row `r` of `a` and column `c`
of `b`; the spec's concrete product evaluates to `[[58,64],[139,154]]`. -/
theorem matrix_mul_spec :
    (∀ a b : Matrix, (a.mul b).isSome ↔ a.cols = b.rows) ∧
    (∀ a b c : Matrix, a.mul b = some c →
      c.rows = a.rows ∧ c.cols = b.cols ∧ c.data.length = a.rows * b.cols ∧
      ∀ r col : ℕ, r < a.rows → col < b.cols →
        c.data[r * b.cols + col]? =
          some (((a.row_iter r).zip (b.col_iter col)).foldl
            (fun sum p => sum + p.1 * p.2) 0)) ∧
    Matrix.mul ⟨2, 3, [1, 2, 3, 4, 5, 6]⟩ ⟨3, 2, [7, 8, 9, 10, 11, 12]⟩ =
      some ⟨2, 2, [58, 64, 139, 154]⟩ := by
  refine ⟨?_, ?_, by
    simp [Matrix.mul, Matrix.row_iter, Matrix.col_iter, Matrix.everyNth,
      Matrix.index_to_rc, List.range_succ]
    norm_num⟩
  · intro a b
    simp only [Matrix.mul]
    split_ifs with h <;> simp [h]
  · intro a b c h
    simp only [Matrix.mul] at h
    split_ifs at h with hab
    obtain rfl : (⟨a.rows, b.cols,
        (List.range (a.rows * b.cols)).map (fun i =>
          let rc := Matrix.index_to_rc i b.cols
          ((a.row_iter rc.1).zip (b.col_iter rc.2)).foldl
            (fun sum p => sum + p.1 * p.2) 0)⟩ : Matrix) = c := by
      exact Option.some.inj h
    refine ⟨rfl, rfl, by simp, ?_⟩
    intro r col hr hcol
    have hb : 0 < b.cols := by omega
    have hidx : r * b.cols + col < a.rows * b.cols := by
      calc r * b.cols + col < r * b.cols + b.cols := by omega
        _ = (r + 1) * b.cols := (Nat.succ_mul r b.cols).symm
        _ ≤ a.rows * b.cols := Nat.mul_le_mul_right _ (by omega)
    rw [List.getElem?_map, List.getElem?_range hidx]
    have hdiv : (r * b.cols + col) / b.cols = r := by
      rw [Nat.mul_comm r b.cols, Nat.mul_add_div hb, Nat.div_eq_of_lt hcol]
      omega
    have hmod : (r * b.cols + col) % b.cols = col := by
      rw [Nat.mul_comm r b.cols, Nat.mul_add_mod, Nat.mod_eq_of_lt hcol]
    simp [Matrix.index_to_rc, hdiv, hmod]

/-- C2 witness: the cell formula instantiated at cell `(1, 1)` of the
spec's concrete product. -/
theorem matrix_mul_spec_witness :
    ((⟨2, 2, [58, 64, 139, 154]⟩ : Matrix)).data[1 * 2 + 1]? =
      some ((((⟨2, 3, [1, 2, 3, 4, 5, 6]⟩ : Matrix).row_iter 1).zip
        ((⟨3, 2, [7, 8, 9, 10, 11, 12]⟩ : Matrix).col_iter 1)).foldl
          (fun sum p => sum + p.1 * p.2) 0) :=
  (matrix_mul_spec.2.1 ⟨2, 3, [1, 2, 3, 4, 5, 6]⟩ ⟨3, 2, [7, 8, 9, 10, 11, 12]⟩
    ⟨2, 2, [58, 64, 139, 154]⟩ matrix_mul_spec.2.2).2.2.2 1 1 (by decide) (by decide)

/-- C9: `to_ident` keeps `rows`, `cols` and the buffer length, and sets
buffer cell `i` to `1` exactly when `i / cols = i % cols`, else `0`;
on the non-square 2×3 matrix this yields the generalized-identity
pattern `[1,0,0,0,1,0]`. -/
theorem to_ident_spec :
    (∀ m : Matrix, m.to_ident.rows = m.rows ∧ m.to_ident.cols = m.cols ∧
      m.to_ident.data.length = m.data.length ∧
      ∀ i : ℕ, i < m.data.length →
        m.to_ident.data[i]? = some (if i / m.cols = i % m.cols then (1 : ℚ) else 0)) ∧
    Matrix.to_ident ⟨2, 3, [9, 9, 9, 9, 9, 9]⟩ = ⟨2, 3, [1, 0, 0, 0, 1, 0]⟩ := by
  refine ⟨?_, by decide⟩
  intro m
  refine ⟨rfl, rfl, by simp [Matrix.to_ident, List.enum_length], ?_⟩
  intro i hi
  have : m.data[i]? = some m.data[i] := List.getElem?_eq_getElem hi
  simp [Matrix.to_ident, List.getElem?_map, List.getElem?_enum, Matrix.index_to_rc, this]

/-- C9 witness: cell 4 of the 2×3 generalized identity is `1` because
`4 / 3 = 4 % 3`. -/
theorem to_ident_spec_witness :
    (Matrix.to_ident ⟨2, 3, [9, 9, 9, 9, 9, 9]⟩).data[4]? =
      some (if 4 / 3 = 4 % 3 then (1 : ℚ) else 0) :=
  (to_ident_spec.1 ⟨2, 3, [9, 9, 9, 9, 9, 9]⟩).2.2.2 4 (by decide)

/-- C8: the invariant `data.length = rows * cols` holds at construction
and is preserved by `set`, `append_row`, `append_edge`, `to_ident` and
`mul_mut_b`; the two append operations add exactly `cols` values and
increment `rows` by one. -/
theorem matrix_invariant_preserved :
    (∀ (rows cols : ℕ) (data : List ℚ) (m : Matrix),
      Matrix.new rows cols data = some m → m.invariant) ∧
    (∀ (m : Matrix) (r c : ℕ) (v : ℚ) (m' : Matrix),
      m.invariant → m.set r c v = some m' → m'.invariant) ∧
    (∀ (m : Matrix) (v : List ℚ) (m' : Matrix) (v' : List ℚ),
      m.invariant → m.append_row v = some (m', v') →
      m'.invariant ∧ m'.data.length = m.data.length + m.cols ∧
        m'.rows = m.rows + 1 ∧ m'.cols = m.cols) ∧
    (∀ (m : Matrix) (v : List ℚ) (m' : Matrix) (v' : List ℚ),
      m.invariant → m.append_edge v = some (m', v') →
      m'.invariant ∧ m'.data.length = m.data.length + m.cols ∧
        m'.rows = m.rows + 1 ∧ m'.cols = m.cols) ∧
    (∀ a b b' : Matrix, Matrix.mul_mut_b a b = some b' → b'.invariant) ∧
    (∀ m : Matrix, m.invariant → m.to_ident.invariant) := by
  refine ⟨?_, ?_, ?_, ?_, ?_, ?_⟩
  · intro rows cols data m h
    simp only [Matrix.new] at h
    split_ifs at h with hlen
    obtain rfl := Option.some.inj h
    exact hlen.symm
  · intro m r c v m' hm h
    simp only [Matrix.set] at h
    split_ifs at h with hrc
    obtain rfl := Option.some.inj h
    simpa [Matrix.invariant] using hm
  · intro m v m' v' hm h
    simp only [Matrix.append_row] at h
    split_ifs at h with hc
    obtain ⟨rfl, rfl⟩ : ({ m with data := m.data ++ v, rows := m.rows + 1 } = m') ∧ [] = v' := by
      simpa using h
    refine ⟨?_, by simp [← hc], rfl, rfl⟩
    simp only [Matrix.invariant, List.length_append] at hm ⊢
    rw [hm, ← hc, Nat.succ_mul]
  · intro m v m' v' hm h
    simp only [Matrix.append_edge] at h
    split_ifs at h with hc
    obtain ⟨rfl, rfl⟩ :
        ({ m with data := m.data ++ (v ++ [1]), rows := m.rows + 1 } = m') ∧ [] = v' := by
      simpa using h
    refine ⟨?_, by simp [← hc], rfl, rfl⟩
    simp only [Matrix.invariant, List.length_append, List.length_cons, List.length_nil] at hm ⊢
    rw [hm, Nat.succ_mul]
    omega
  · intro a b b' h
    simp only [Matrix.mul_mut_b, Matrix.mul] at h
    split_ifs at h with hab
    obtain rfl := Option.some.inj h
    simp [Matrix.invariant]
  · intro m hm
    simp only [Matrix.invariant, Matrix.to_ident] at hm ⊢
    simpa [List.enum_length] using hm

/-- C8 witness: the spec's `append_edge` example — appending `(1,2,4)`
to an empty 0×4 matrix preserves the invariant and grows the matrix by
one row of four values. -/
theorem matrix_invariant_preserved_witness :
    (⟨1, 4, [1, 2, 4, 1]⟩ : Matrix).invariant ∧
    (⟨1, 4, [1, 2, 4, 1]⟩ : Matrix).data.length = ([] : List ℚ).length + 4 ∧
    (⟨1, 4, [1, 2, 4, 1]⟩ : Matrix).rows = 0 + 1 ∧
    (⟨1, 4, [1, 2, 4, 1]⟩ : Matrix).cols = 4 :=
  matrix_invariant_preserved.2.2.2.1 ⟨0, 4, []⟩ [1, 2, 4] ⟨1, 4, [1, 2, 4, 1]⟩ []
    (by simp [Matrix.invariant]) (by decide)

/-- C10 counterexample: the claim says reusing the (now empty) vector
for a second append always fails the length check; on a matrix with
zero columns both appends of the empty vector succeed. -/
theorem append_row_reuse_counterexample :
    Matrix.append_row ⟨5, 0, []⟩ [] = some (⟨6, 0, []⟩, []) ∧
    Matrix.append_row ⟨6, 0, []⟩ [] = some (⟨7, 0, []⟩, []) := by
  decide

/-- C10 (amended): `append_row` / `append_edge` move the supplied
vector's elements into the matrix (for `append_edge` after pushing the
homogeneous `1.0`), leaving the caller's vector empty; reusing the
emptied vector for a second append fails the length check provided the
matrix has at least one column (`append_row`), respectively more than
one column (`append_edge`). -/
theorem append_move_semantics_spec :
    (∀ (m : Matrix) (v : List ℚ), v.length = m.cols →
      m.append_row v = some ({ m with data := m.data ++ v, rows := m.rows + 1 }, [])) ∧
    (∀ (m : Matrix) (v : List ℚ), v.length + 1 = m.cols →
      m.append_edge v =
        some ({ m with data := m.data ++ (v ++ [1]), rows := m.rows + 1 }, [])) ∧
    (∀ (m m' : Matrix) (v rest : List ℚ),
      m.append_row v = some (m', rest) → 0 < m.cols → m'.append_row rest = none) ∧
    (∀ (m m' : Matrix) (v rest : List ℚ),
      m.append_edge v = some (m', rest) → 1 < m.cols → m'.append_edge rest = none) := by
  refine ⟨?_, ?_, ?_, ?_⟩
  · intro m v hv
    simp [Matrix.append_row, hv]
  · intro m v hv
    simp [Matrix.append_edge, ← hv]
  · intro m m' v rest h hc
    simp only [Matrix.append_row] at h ⊢
    split_ifs at h with h1
    obtain ⟨rfl, rfl⟩ :
        ({ m with data := m.data ++ v, rows := m.rows + 1 } = m') ∧ [] = rest := by
      simpa using h
    simp only [List.length_nil]
    split_ifs with h2
    · omega
    · rfl
  · intro m m' v rest h hc
    simp only [Matrix.append_edge] at h ⊢
    split_ifs at h with h1
    obtain ⟨rfl, rfl⟩ :
        ({ m with data := m.data ++ (v ++ [1]), rows := m.rows + 1 } = m') ∧ [] = rest := by
      simpa using h
    simp only [List.length_nil]
    split_ifs with h2
    · omega
    · rfl

/-- Folding an emit function over pixels appends the per-pixel chunks. -/
lemma foldl_emit (g : RGB → List ℕ) :
    ∀ (l : List RGB) (acc : List ℕ),
      l.foldl (fun a t => a ++ g t) acc = acc ++ l.flatMap g := by
  intro l
  induction l with
  | nil => simp
  | cons t ts ih =>
    intro acc
    simp [ih, List.append_assoc]

/-- A flatMap whose chunks all have size `k` has length `k * length`. -/
lemma flatMap_const_length (g : RGB → List ℕ) (k : ℕ) (hg : ∀ t, (g t).length = k) :
    ∀ l : List RGB, (l.flatMap g).length = k * l.length := by
  intro l
  induction l with
  | nil => simp
  | cons t ts ih =>
    simp [hg, ih, Nat.mul_succ, Nat.add_comm]

/-- C5: after the two header lines the binary writer emits, per pixel in
buffer order: for `depth < 256` exactly the three bytes green, green,
blue (so the output never depends on the red channel); for
`depth ≥ 256` the big-endian two-byte encodings of red, green, blue,
which represent every `u16` value without truncation. -/
theorem write_binary_body_spec :
    (∀ img : PPMImg, img.depth < 256 →
      writeBinaryBody img =
        img.data.flatMap (fun t => [t.green % 256, t.green % 256, t.blue % 256]) ∧
      (writeBinaryBody img).length = 3 * img.data.length) ∧
    (∀ (img : PPMImg) (f : RGB → ℕ), img.depth < 256 →
      writeBinaryBody { img with data := img.data.map (fun t => ⟨f t, t.blue, t.green⟩) } =
        writeBinaryBody img) ∧
    (∀ img : PPMImg, 256 ≤ img.depth →
      writeBinaryBody img =
        img.data.flatMap (fun t => u16be t.red ++ u16be t.green ++ u16be t.blue) ∧
      (writeBinaryBody img).length = 6 * img.data.length) ∧
    (∀ v : ℕ, v < 65536 → u16be v = [v / 256, v % 256] ∧ u16beVal (u16be v) = v) := by
  refine ⟨?_, ?_, ?_, ?_⟩
  · intro img h
    have he : writeBinaryBody img =
        img.data.flatMap (fun t => [t.green % 256, t.green % 256, t.blue % 256]) := by
      simp only [writeBinaryBody, if_pos h]
      simpa using
        foldl_emit (fun t => [t.green % 256, t.green % 256, t.blue % 256]) img.data []
    refine ⟨he, ?_⟩
    rw [he, flatMap_const_length _ 3 (by intro t; rfl)]
  · intro img f h
    simp only [writeBinaryBody, if_pos h]
    rw [foldl_emit (fun t => [t.green % 256, t.green % 256, t.blue % 256]),
      foldl_emit (fun t => [t.green % 256, t.green % 256, t.blue % 256])]
    simp [List.flatMap_map]
  · intro img h
    have he : writeBinaryBody img =
        img.data.flatMap (fun t => u16be t.red ++ u16be t.green ++ u16be t.blue) := by
      simp only [writeBinaryBody, if_neg (by omega : ¬ img.depth < 256)]
      simpa using
        foldl_emit (fun t => u16be t.red ++ u16be t.green ++ u16be t.blue) img.data []
    refine ⟨he, ?_⟩
    rw [he, flatMap_const_length _ 6 (by intro t; simp [u16be])]
  · intro v hv
    constructor
    · simp only [u16be]
      congr 1
      omega
    · simp only [u16be, u16beVal]
      omega

/-- C5 witness: a depth-100 image with a single pixel of red 9, blue 5,
green 7 emits exactly the bytes green, green, blue. -/
theorem write_binary_body_spec_witness :
    writeBinaryBody ⟨1, 1, 100, false, false, ⟨1, 2, 3⟩, ⟨0, 0, 0⟩, [⟨9, 5, 7⟩]⟩ =
      [7, 7, 5] := by
  have h := (write_binary_body_spec.1
    ⟨1, 1, 100, false, false, ⟨1, 2, 3⟩, ⟨0, 0, 0⟩, [⟨9, 5, 7⟩]⟩ (by decide)).1
  simpa using h

/-- Rust truncated remainder on a negative dividend, by cases on the
`Int` representation. -/
lemma negSucc_tmod_ofNat (m n : ℕ) :
    Int.tmod (Int.negSucc m) ((n : ℕ) : ℤ) = -(((m + 1) % n : ℕ) : ℤ) := rfl

/-- The coordinate reduction of `plot` (truncated remainder, plus the
extent when the remainder is negative) equals the floor-style modulo
`Int.emod`. -/
lemma wrap_eq_emod (x : ℤ) (w : ℕ) (hw : 0 < w) :
    (if x ≥ (w : ℤ) then Int.tmod x w
     else if x < 0 then
       (if Int.tmod x w ≠ 0 then Int.tmod x w + w else Int.tmod x w)
     else x) = x % w := by
  split_ifs with h1 h2 h3
  · exact Int.tmod_eq_emod (by omega) (by omega)
  · cases x with
    | ofNat k => exact absurd h2 (by simp)
    | negSucc m =>
      rw [negSucc_tmod_ofNat] at h3 ⊢
      have hr : ((m + 1) % w : ℕ) ≠ 0 := by
        intro h0
        exact h3 (by simp [h0])
      have hmod : (m + 1) % w < w := Nat.mod_lt _ hw
      have hdm : w * ((m + 1) / w) + (m + 1) % w = m + 1 := Nat.div_add_mod _ _
      have hx : Int.negSucc m =
          ((w : ℤ) - ((m + 1) % w : ℕ)) + (w : ℤ) * (-(((m + 1) / w : ℕ) : ℤ) - 1) := by
        have hns : (Int.negSucc m) = -((m : ℤ) + 1) := by simp [Int.negSucc_eq]
        rw [hns]
        push_cast
        nlinarith [hdm]
      rw [hx, Int.add_mul_emod_self_left]
      rw [Int.emod_eq_of_lt (by omega) (by omega)]
      omega
  · cases x with
    | ofNat k => exact absurd h2 (by simp)
    | negSucc m =>
      rw [negSucc_tmod_ofNat] at h3 ⊢
      have h0 : -((((m + 1) % w : ℕ)) : ℤ) = 0 := not_not.mp h3
      have hr : ((m + 1) % w : ℕ) = 0 := by omega
      have hdm : w * ((m + 1) / w) + (m + 1) % w = m + 1 := Nat.div_add_mod _ _
      have hx : Int.negSucc m = (w : ℤ) * (-(((m + 1) / w : ℕ) : ℤ)) := by
        have hns : (Int.negSucc m) = -((m : ℤ) + 1) := by simp [Int.negSucc_eq]
        rw [hns]
        push_cast
        nlinarith [hdm, hr]
      rw [hx, Int.mul_emod_right]
      simp [hr]
  · exact (Int.emod_eq_of_lt (by omega) (by omega)).symm

/-- C4: `plot(x, y)` is a silent no-op when wraparound is disabled on an
axis whose coordinate is outside `[0, extent)`; otherwise each
coordinate is reduced to the non-negative floor-style modulo of its
extent and the reduced pixel is overwritten with the foreground color;
on a width-10 surface `plot(-1, 0)` writes index 9 with `x_wrap` on and
changes nothing with `x_wrap` off. -/
theorem plot_wraparound_spec :
    (∀ (img : PPMImg) (x y : ℤ),
      (img.x_wrap = false ∧ (x < 0 ∨ (img.width : ℤ) ≤ x)) ∨
      (img.y_wrap = false ∧ (y < 0 ∨ (img.height : ℤ) ≤ y)) →
      img.plot x y = img) ∧
    (∀ (img : PPMImg) (x y : ℤ),
      0 < img.width → 0 < img.height →
      (img.x_wrap = true ∨ (0 ≤ x ∧ x < (img.width : ℤ))) →
      (img.y_wrap = true ∨ (0 ≤ y ∧ y < (img.height : ℤ))) →
      0 ≤ x % (img.width : ℤ) ∧ x % (img.width : ℤ) < (img.width : ℤ) ∧
      0 ≤ y % (img.height : ℤ) ∧ y % (img.height : ℤ) < (img.height : ℤ) ∧
      img.plot x y =
        { img with
          data := img.data.set
                    (img.index (x % (img.width : ℤ)).toNat (y % (img.height : ℤ)).toNat)
                    img.fg_color }) ∧
    PPMImg.plot
        ⟨1, 10, 255, true, false, ⟨255, 255, 255⟩, ⟨0, 0, 0⟩, List.replicate 10 ⟨0, 0, 0⟩⟩
        (-1) 0 =
      ⟨1, 10, 255, true, false, ⟨255, 255, 255⟩, ⟨0, 0, 0⟩,
        (List.replicate 10 (⟨0, 0, 0⟩ : RGB)).set 9 ⟨255, 255, 255⟩⟩ ∧
    PPMImg.plot
        ⟨1, 10, 255, false, false, ⟨255, 255, 255⟩, ⟨0, 0, 0⟩, List.replicate 10 ⟨0, 0, 0⟩⟩
        (-1) 0 =
      ⟨1, 10, 255, false, false, ⟨255, 255, 255⟩, ⟨0, 0, 0⟩, List.replicate 10 ⟨0, 0, 0⟩⟩ := by
  refine ⟨?_, ?_, by decide, by decide⟩
  · intro img x y h
    simp only [PPMImg.plot]
    rw [if_pos]
    rcases h with ⟨hxw, hxr⟩ | ⟨hyw, hyr⟩
    · exact Or.inl ⟨by simp [hxw], hxr⟩
    · exact Or.inr ⟨by simp [hyw], hyr⟩
  · intro img x y hw hh hx hy
    have hwz : ((img.width : ℤ)) ≠ 0 := by
      simp
      omega
    have hhz : ((img.height : ℤ)) ≠ 0 := by
      simp
      omega
    refine ⟨Int.emod_nonneg x hwz, Int.emod_lt_of_pos x (by exact_mod_cast hw),
      Int.emod_nonneg y hhz, Int.emod_lt_of_pos y (by exact_mod_cast hh), ?_⟩
    simp only [PPMImg.plot]
    rw [if_neg, wrap_eq_emod x img.width hw, wrap_eq_emod y img.height hh]
    rintro (⟨hxw, hxr⟩ | ⟨hyw, hyr⟩)
    · rcases hx with hx | hx
      · rw [hx] at hxw
        exact absurd hxw (by simp)
      · rcases hxr with h | h <;> omega
    · rcases hy with hy | hy
      · rw [hy] at hyw
        exact absurd hyw (by simp)
      · rcases hyr with h | h <;> omega

/-- C4 witness: the wraparound case instantiated at the width-10
surface with `x_wrap` enabled and the call `plot(-1, 0)`. -/
theorem plot_wraparound_spec_witness :
    PPMImg.plot
        ⟨1, 10, 255, true, false, ⟨255, 255, 255⟩, ⟨0, 0, 0⟩, List.replicate 10 ⟨0, 0, 0⟩⟩
        (-1) 0 =
      { (⟨1, 10, 255, true, false, ⟨255, 255, 255⟩, ⟨0, 0, 0⟩,
          List.replicate 10 ⟨0, 0, 0⟩⟩ : PPMImg) with
        data := (List.replicate 10 (⟨0, 0, 0⟩ : RGB)).set
                  ((⟨1, 10, 255, true, false, ⟨255, 255, 255⟩, ⟨0, 0, 0⟩,
                      List.replicate 10 ⟨0, 0, 0⟩⟩ : PPMImg).index
                    ((-1 : ℤ) % ((10 : ℕ) : ℤ)).toNat ((0 : ℤ) % ((1 : ℕ) : ℤ)).toNat)
                  ⟨255, 255, 255⟩ } := by
  have h := (plot_wraparound_spec.2.1
    ⟨1, 10, 255, true, false, ⟨255, 255, 255⟩, ⟨0, 0, 0⟩, List.replicate 10 ⟨0, 0, 0⟩⟩ (-1) 0
    (by decide) (by decide) (Or.inl rfl) (Or.inr (by decide))).2.2.2.2
  simpa using h

/-- Membership in the inclusive integer range `lo..=hi`. -/
lemma mem_rangeIncl {y lo hi : ℤ} : y ∈ rangeIncl lo hi ↔ lo ≤ y ∧ y ≤ hi := by
  unfold rangeIncl
  constructor
  · intro hmem
    obtain ⟨i, hi, rfl⟩ := List.mem_map.mp hmem
    rw [List.mem_range] at hi
    omega
  · rintro ⟨h1, h2⟩
    refine List.mem_map.mpr ⟨(y - lo).toNat, ?_, ?_⟩
    · rw [List.mem_range]
      omega
    · omega

/-- Round-half-away-from-zero is monotone. -/
lemma roundAway_mono {x y : ℚ} (h : x ≤ y) : roundAway x ≤ roundAway y := by
  unfold roundAway
  split_ifs with h1 h2 h2
  · exact Int.floor_mono (by linarith)
  · linarith
  · have ha : (0 : ℤ) ≤ ⌊y + 1/2⌋ := Int.floor_nonneg.mpr (by linarith)
    have hb : (0 : ℤ) ≤ ⌊(1:ℚ)/2 - x⌋ := Int.floor_nonneg.mpr (by linarith)
    omega
  · have := Int.floor_mono (show (1:ℚ)/2 - y ≤ 1/2 - x by linarith)
    omega

/-- The vertical branch of the integer rasterizer ignores the order of
its y endpoints. -/
lemma drawLinePixelsInt_vert_eq (x a b : ℤ) :
    drawLinePixelsInt x a x b = drawLinePixelsInt x b x a := by
  simp only [drawLinePixelsInt, sub_self, neg_zero, reduceIte]
  rcases lt_trichotomy a b with h | h | h
  · rw [if_pos h, if_neg (by omega)]
  · subst h
    rfl
  · rw [if_neg (by omega), if_pos h]

/-- Pixels of the vertical branch: fixed x, all y between the sorted
endpoints inclusive. -/
lemma drawLinePixelsInt_vert_mem (x y0 y1 a b : ℤ) :
    (a, b) ∈ drawLinePixelsInt x y0 x y1 ↔
      a = x ∧ min y0 y1 ≤ b ∧ b ≤ max y0 y1 := by
  simp only [drawLinePixelsInt, sub_self, neg_zero, reduceIte]
  rcases lt_trichotomy y0 y1 with h | h | h
  · rw [if_pos h]
    simp [List.mem_map, mem_rangeIncl, Prod.ext_iff]
    omega
  · subst h
    rw [if_neg (by omega)]
    simp [List.mem_map, mem_rangeIncl, Prod.ext_iff]
    omega
  · rw [if_neg (by omega)]
    simp [List.mem_map, mem_rangeIncl, Prod.ext_iff]
    omega

/-- Pixels of the horizontal branch (ordered x endpoints): fixed y, all
x between the endpoints inclusive. -/
lemma drawLinePixelsInt_horiz_mem (x0 x1 y a b : ℤ) (hx : x0 ≤ x1) :
    (a, b) ∈ drawLinePixelsInt x0 y x1 y ↔ b = y ∧ x0 ≤ a ∧ a ≤ x1 := by
  rcases eq_or_lt_of_le hx with h | h
  · subst h
    rw [drawLinePixelsInt_vert_mem]
    omega
  · simp only [drawLinePixelsInt]
    rw [if_neg (by omega)]
    simp only [sub_self, reduceIte]
    simp [List.mem_map, mem_rangeIncl, Prod.ext_iff]
    constructor
    · rintro ⟨c, hc, rfl, rfl⟩
      omega
    · rintro ⟨rfl, h1, h2⟩
      exact ⟨a, ⟨h1, h2⟩, rfl, rfl⟩

/-- C3: the rasterized segment is independent of endpoint order — both
as the produced pixel sequence and as the effect of `draw_line` on any
surface. -/
theorem draw_line_symmetric :
    (∀ x0 y0 x1 y1 : ℚ, drawLinePixels x0 y0 x1 y1 = drawLinePixels x1 y1 x0 y0) ∧
    (∀ (img : PPMImg) (x0 y0 x1 y1 : ℚ),
      img.draw_line x0 y0 x1 y1 = img.draw_line x1 y1 x0 y0) := by
  have hpix : ∀ x0 y0 x1 y1 : ℚ, drawLinePixels x0 y0 x1 y1 = drawLinePixels x1 y1 x0 y0 := by
    intro x0 y0 x1 y1
    simp only [drawLinePixels]
    rcases lt_trichotomy x0 x1 with h | h | h
    · rw [if_neg (not_lt.mpr h.le), if_pos h]
    · subst h
      rw [if_neg (lt_irrefl x0), if_neg (lt_irrefl x0)]
      exact drawLinePixelsInt_vert_eq _ _ _
    · rw [if_pos h, if_neg (not_lt.mpr h.le)]
  exact ⟨hpix, fun img x0 y0 x1 y1 => by rw [PPMImg.draw_line, PPMImg.draw_line, hpix]⟩

/-- C6: when the rounded endpoints share their x, the plotted pixels are
exactly the integer points with that x and y between the two rounded y
values inclusive; when they share their y, exactly the integer points
with that y and x between the two rounded x values inclusive; the
concrete segments `(5,2)→(5,9)` and `(2,5)→(9,5)` plot exactly the
expected 8 pixels each. -/
theorem draw_line_degenerate_spec :
    (∀ x0 y0 x1 y1 : ℚ, roundAway x0 = roundAway x1 →
      ∀ a b : ℤ, ((a, b) ∈ drawLinePixels x0 y0 x1 y1 ↔
        a = roundAway x0 ∧ min (roundAway y0) (roundAway y1) ≤ b ∧
          b ≤ max (roundAway y0) (roundAway y1))) ∧
    (∀ x0 y0 x1 y1 : ℚ, roundAway y0 = roundAway y1 →
      ∀ a b : ℤ, ((a, b) ∈ drawLinePixels x0 y0 x1 y1 ↔
        b = roundAway y0 ∧ min (roundAway x0) (roundAway x1) ≤ a ∧
          a ≤ max (roundAway x0) (roundAway x1))) ∧
    drawLinePixels 5 2 5 9 = [(5,2),(5,3),(5,4),(5,5),(5,6),(5,7),(5,8),(5,9)] ∧
    drawLinePixels 2 5 9 5 = [(2,5),(3,5),(4,5),(5,5),(6,5),(7,5),(8,5),(9,5)] := by
  refine ⟨?_, ?_, ?_, ?_⟩
  · intro x0 y0 x1 y1 hx a b
    simp only [drawLinePixels]
    split_ifs with h
    · rw [← hx, drawLinePixelsInt_vert_eq, drawLinePixelsInt_vert_mem]
    · rw [hx, drawLinePixelsInt_vert_mem]
  · intro x0 y0 x1 y1 hy a b
    simp only [drawLinePixels]
    split_ifs with h
    · have hm := roundAway_mono h.le
      rw [← hy, drawLinePixelsInt_horiz_mem _ _ _ _ _ hm]
      omega
    · have hm := roundAway_mono (le_of_not_lt h)
      rw [← hy, drawLinePixelsInt_horiz_mem _ _ _ _ _ hm]
      omega
  · norm_num [drawLinePixels, drawLinePixelsInt, roundAway, rangeIncl,
      show ((8:ℤ)).toNat = 8 from rfl, List.range_succ]
  · norm_num [drawLinePixels, drawLinePixelsInt, roundAway, rangeIncl,
      show ((8:ℤ)).toNat = 8 from rfl, List.range_succ]

/-- C6 witness: the vertical characterization applied to the segment
`(5,2)→(5,9)` puts `(5,7)` on it and keeps `(5,10)` and `(4,7)` off. -/
theorem draw_line_degenerate_spec_witness :
    ((5 : ℤ), (7 : ℤ)) ∈ drawLinePixels 5 2 5 9 ∧
    ¬ ((5 : ℤ), (10 : ℤ)) ∈ drawLinePixels 5 2 5 9 ∧
    ¬ ((4 : ℤ), (7 : ℤ)) ∈ drawLinePixels 5 2 5 9 :=
  ⟨(draw_line_degenerate_spec.1 5 2 5 9 (by norm_num [roundAway]) 5 7).mpr
    (by norm_num [roundAway]),
   fun hmem => by
    have h := (draw_line_degenerate_spec.1 5 2 5 9 (by norm_num [roundAway]) 5 10).mp hmem
    norm_num [roundAway] at h,
   fun hmem => by
    have h := (draw_line_degenerate_spec.1 5 2 5 9 (by norm_num [roundAway]) 4 7).mp hmem
    norm_num [roundAway] at h⟩

/-- C10 witness: appending `[7, 8]` to a 0×2 matrix moves the values
in, returns the emptied vector, and the reuse then fails. -/
theorem append_move_semantics_spec_witness :
    Matrix.append_row ⟨0, 2, []⟩ [7, 8] =
      some (⟨1, 2, [7, 8]⟩, []) ∧
    Matrix.append_row ⟨1, 2, [7, 8]⟩ [] = none :=
  ⟨by
    have h := append_move_semantics_spec.1 ⟨0, 2, []⟩ [7, 8] (by decide)
    simpa using h,
   append_move_semantics_spec.2.2.1 ⟨0, 2, []⟩ ⟨1, 2, [7, 8]⟩ [7, 8] []
     (by
       have h := append_move_semantics_spec.1 ⟨0, 2, []⟩ [7, 8] (by decide)
       simpa using h)
     (by decide)⟩
/-- With the length invariant and a positive chunk size, `chunks`
splits the buffer into exactly `rows` full rows. -/
lemma chunks_eq_rows (rows cols : ℕ) (hc : 0 < cols) :
    ∀ data : List ℚ, data.length = rows * cols →
      Matrix.chunks data cols = (List.range rows).map (fun j => (data.drop (j * cols)).take cols) := by
  induction rows with
  | zero =>
    intro data hlen
    have hd : data = [] := List.length_eq_zero.mp (by simpa using hlen)
    subst hd
    obtain ⟨s, rfl⟩ : ∃ s, cols = s + 1 := ⟨cols - 1, by omega⟩
    simp [Matrix.chunks]
  | succ rows ih =>
    intro data hlen
    have hsm : (rows + 1) * cols = rows * cols + cols := Nat.succ_mul rows cols
    obtain ⟨s, rfl⟩ : ∃ s, cols = s + 1 := ⟨cols - 1, by omega⟩
    obtain ⟨x, xs, rfl⟩ : ∃ x xs, data = x :: xs := by
      cases data with
      | nil => simp at hlen
      | cons x xs => exact ⟨x, xs, rfl⟩
    have hstep : Matrix.chunks (x :: xs) (s + 1) =
        ((x :: xs).take (s + 1)) :: Matrix.chunks ((x :: xs).drop (s + 1)) (s + 1) := by
      simp [Matrix.chunks]
    rw [hstep, ih ((x :: xs).drop (s + 1))
      (by rw [List.length_drop, hlen, hsm]; omega)]
    rw [List.range_succ_eq_map, List.map_cons, List.map_map]
    congr 1
    · simp
    · apply List.map_congr_left
      intro j hj
      simp only [Function.comp_apply, List.drop_drop]
      congr 2
      simp [Nat.succ_eq_add_one]
      ring

/-- The pairwise walk of `render_edge_matrix` over a chunk list whose
chunks all have at least three entries: the multiple-of-2 panic fires
exactly on an odd chunk count, and an even count yields one recorded
segment per chunk pair, built from entries 0 and 1 of the two chunks. -/
lemma renderEdgeLoop_spec :
    ∀ (n : ℕ) (cl : List (List ℚ)), cl.length = n → (∀ ch ∈ cl, 3 ≤ ch.length) →
      ((renderEdgeLoop cl = .error .oddRows ↔ n % 2 = 1) ∧
       (n % 2 = 0 → ∃ ls, renderEdgeLoop cl = .ok ls ∧ ls.length = n / 2 ∧
         ∀ i : ℕ, ls[i]? = (cl[2 * i]?).bind (fun p0 =>
           (cl[2 * i + 1]?).bind (fun p1 =>
             (p0[0]?).bind (fun x0 => (p0[1]?).bind (fun y0 =>
               (p1[0]?).bind (fun x1 => (p1[1]?).map (fun y1 =>
                 (x0, y0, x1, y1))))))))) := by
  intro n
  induction n using Nat.strong_induction_on with
  | _ n ih =>
    intro cl hlen hch
    match cl with
    | [] =>
      obtain rfl : n = 0 := by simpa using hlen.symm
      refine ⟨by simp [renderEdgeLoop], fun _ => ⟨[], rfl, rfl, fun i => by simp [renderEdgeLoop]⟩⟩
    | [p0] =>
      obtain rfl : n = 1 := by simpa using hlen.symm
      have h3 := hch p0 (by simp)
      obtain ⟨x0, hx0⟩ : ∃ v, p0[0]? = some v := ⟨_, List.getElem?_eq_getElem (by omega)⟩
      obtain ⟨y0, hy0⟩ : ∃ v, p0[1]? = some v := ⟨_, List.getElem?_eq_getElem (by omega)⟩
      obtain ⟨z0, hz0⟩ : ∃ v, p0[2]? = some v := ⟨_, List.getElem?_eq_getElem (by omega)⟩
      refine ⟨by simp [renderEdgeLoop, hx0, hy0, hz0], fun h => by omega⟩
    | p0 :: p1 :: rest =>
      have hlen2 : rest.length = n - 2 := by simp at hlen; omega
      have hn2 : n - 2 < n := by simp at hlen; omega
      have hr := ih (n - 2) hn2 rest hlen2 (fun ch hc => hch ch (by simp [hc]))
      have h30 := hch p0 (by simp)
      have h31 := hch p1 (by simp)
      obtain ⟨x0, hx0⟩ : ∃ v, p0[0]? = some v := ⟨_, List.getElem?_eq_getElem (by omega)⟩
      obtain ⟨y0, hy0⟩ : ∃ v, p0[1]? = some v := ⟨_, List.getElem?_eq_getElem (by omega)⟩
      obtain ⟨z0, hz0⟩ : ∃ v, p0[2]? = some v := ⟨_, List.getElem?_eq_getElem (by omega)⟩
      obtain ⟨x1, hx1⟩ : ∃ v, p1[0]? = some v := ⟨_, List.getElem?_eq_getElem (by omega)⟩
      obtain ⟨y1, hy1⟩ : ∃ v, p1[1]? = some v := ⟨_, List.getElem?_eq_getElem (by omega)⟩
      obtain ⟨z1, hz1⟩ : ∃ v, p1[2]? = some v := ⟨_, List.getElem?_eq_getElem (by omega)⟩
      have hred : renderEdgeLoop (p0 :: p1 :: rest) =
          (renderEdgeLoop rest).map (fun ls => (x0, y0, x1, y1) :: ls) := by
        simp [renderEdgeLoop, hx0, hy0, hz0, hx1, hy1, hz1]
      have hpar : n % 2 = (n - 2) % 2 := by simp at hlen; omega
      constructor
      · rw [hred, hpar, ← hr.1]
        cases hres : renderEdgeLoop rest <;> simp [hres, Except.map]
      · intro heven
        obtain ⟨ls, hok, hlslen, hget⟩ := hr.2 (by omega)
        refine ⟨(x0, y0, x1, y1) :: ls, by simp [hred, hok, Except.map], by simp [hlslen]; omega, ?_⟩
        intro i
        cases i with
        | zero => simp [hx0, hy0, hx1, hy1]
        | succ i =>
          have e1 : 2 * (i + 1) = (2 * i + 1) + 1 := by ring
          have e2 : 2 * (i + 1) + 1 = (2 * i + 1 + 1) + 1 := by ring
          rw [List.getElem?_cons_succ, hget i, e2, e1]
          simp only [List.getElem?_cons_succ]

/-- Under the length invariant every in-range row slice has `cols`
entries. -/
lemma row_iter_length (m : Matrix) (hinv : m.invariant) {j : ℕ} (hj : j < m.rows) :
    (m.row_iter j).length = m.cols := by
  have hlen : m.data.length = m.rows * m.cols := hinv
  simp only [Matrix.row_iter, List.length_take, List.length_drop, hlen]
  have h1 : (j + 1) * m.cols ≤ m.rows * m.cols := Nat.mul_le_mul_right _ (by omega)
  rw [Nat.succ_mul] at h1
  apply min_eq_left
  apply Nat.le_sub_of_add_le
  linarith [h1]

/-- C7 (amended): for a matrix satisfying the length invariant and
having at least three columns, `render_edge_matrix` raises the fatal
"must be multiple of 2" error exactly when the row count is odd, and on
an even row count draws exactly `rows / 2` lines, the i-th from the
first two values of rows `2i` and `2i+1`. -/
theorem render_edge_matrix_spec :
    ∀ m : Matrix, m.invariant → 3 ≤ m.cols →
      ((renderEdgeMatrix m = .error .oddRows ↔ m.rows % 2 = 1) ∧
       (m.rows % 2 = 0 → ∃ ls, renderEdgeMatrix m = .ok ls ∧ ls.length = m.rows / 2 ∧
         ∀ i : ℕ, i < m.rows / 2 → ∃ x0 y0 x1 y1 : ℚ,
           (m.row_iter (2 * i))[0]? = some x0 ∧ (m.row_iter (2 * i))[1]? = some y0 ∧
           (m.row_iter (2 * i + 1))[0]? = some x1 ∧ (m.row_iter (2 * i + 1))[1]? = some y1 ∧
           ls[i]? = some (x0, y0, x1, y1))) := by
  intro m hinv hc
  have hc0 : 0 < m.cols := by omega
  have hcl2 : Matrix.chunks m.data m.cols = (List.range m.rows).map m.row_iter := by
    rw [chunks_eq_rows m.rows m.cols hc0 m.data hinv]
    rfl
  have hlen : (Matrix.chunks m.data m.cols).length = m.rows := by simp [hcl2]
  have hch : ∀ ch ∈ Matrix.chunks m.data m.cols, 3 ≤ ch.length := by
    rw [hcl2]
    intro ch hmem
    obtain ⟨j, hj, rfl⟩ := List.mem_map.mp hmem
    rw [List.mem_range] at hj
    rw [row_iter_length m hinv hj]
    exact hc
  have hloop := renderEdgeLoop_spec m.rows (Matrix.chunks m.data m.cols) hlen hch
  constructor
  · exact hloop.1
  · intro heven
    obtain ⟨ls, hok, hlslen, hget⟩ := hloop.2 heven
    refine ⟨ls, hok, hlslen, ?_⟩
    intro i hi
    have h2i : 2 * i < m.rows := by omega
    have h2i1 : 2 * i + 1 < m.rows := by omega
    have hcg : (Matrix.chunks m.data m.cols)[2 * i]? = some (m.row_iter (2 * i)) := by
      rw [hcl2, List.getElem?_map, List.getElem?_range h2i]
      rfl
    have hcg1 : (Matrix.chunks m.data m.cols)[2 * i + 1]? = some (m.row_iter (2 * i + 1)) := by
      rw [hcl2, List.getElem?_map, List.getElem?_range h2i1]
      rfl
    have hrl0 : (m.row_iter (2 * i)).length = m.cols := row_iter_length m hinv h2i
    have hrl1 : (m.row_iter (2 * i + 1)).length = m.cols := row_iter_length m hinv h2i1
    obtain ⟨x0, hx0⟩ : ∃ v, (m.row_iter (2 * i))[0]? = some v :=
      ⟨_, List.getElem?_eq_getElem (by omega)⟩
    obtain ⟨y0, hy0⟩ : ∃ v, (m.row_iter (2 * i))[1]? = some v :=
      ⟨_, List.getElem?_eq_getElem (by omega)⟩
    obtain ⟨x1, hx1⟩ : ∃ v, (m.row_iter (2 * i + 1))[0]? = some v :=
      ⟨_, List.getElem?_eq_getElem (by omega)⟩
    obtain ⟨y1, hy1⟩ : ∃ v, (m.row_iter (2 * i + 1))[1]? = some v :=
      ⟨_, List.getElem?_eq_getElem (by omega)⟩
    refine ⟨x0, y0, x1, y1, hx0, hy0, hx1, hy1, ?_⟩
    rw [hget i, hcg, hcg1]
    simp [hx0, hy0, hx1, hy1]

/-- C7 counterexample: a 1×2 matrix has an odd number of rows, yet the
code panics with a slice-index error on `point[2]` before ever reaching
the multiple-of-2 check, so the claimed "if and only if" fails as
stated. -/
theorem render_edge_matrix_two_col_counterexample :
    renderEdgeMatrix ⟨1, 2, [1, 2]⟩ = .error .indexOutOfBounds ∧
    (⟨1, 2, [1, 2]⟩ : Matrix).rows % 2 = 1 ∧
    renderEdgeMatrix ⟨1, 2, [1, 2]⟩ ≠ .error .oddRows := by
  have h : renderEdgeMatrix ⟨1, 2, [1, 2]⟩ = .error .indexOutOfBounds := by
    simp [renderEdgeMatrix, Matrix.iter_by_row, Matrix.chunks, renderEdgeLoop]
  refine ⟨h, rfl, ?_⟩
  rw [h]
  simp

/-- C7 witness: a 2×3 matrix satisfies both hypotheses and, having an
even row count, does not raise the multiple-of-2 error. -/
theorem render_edge_matrix_spec_witness :
    renderEdgeMatrix ⟨2, 3, [0, 1, 2, 3, 4, 5]⟩ ≠ Except.error RenderErr.oddRows ∧
    (⟨2, 3, [0, 1, 2, 3, 4, 5]⟩ : Matrix).rows % 2 = 0 := by
  constructor
  · intro h
    have hodd := (render_edge_matrix_spec ⟨2, 3, [0, 1, 2, 3, 4, 5]⟩
      (by simp [Matrix.invariant]) (by norm_num)).1.mp h
    simp at hodd
  · rfl
